import Mathlib

/-!
Shallow embedding of the envlit repository core (state store, tracker,
operation engine, path operations, profile hook merge, CLI flag collection),
with theorems checking the natural-language specification against it.

Python values are modelled as follows: environment variable values are
`Option String` (`none` is the unset / Python `None` sentinel), Python
dictionaries are association lists with Python
dict semantics (insertion order, assignment replaces in place), and calls
into the `json` library are modelled by their outcome
(`Except String α`: `Except.error` is a raised `JSONDecodeError`).
-/

/-- Python `d.get(key)` on an association list used as a dict:
the value at the first matching key, `none` when absent. -/
def dictGet {α : Type} (st : List (String × α)) (n : String) : Option α :=
  match st with
  | [] => none
  | (k, v) :: rest => if k = n then some v else dictGet rest n

/-- Python `d[key] = v` on an association list used as a dict:
replace the value in place when the key is present, else append the
new binding at the end (Python dicts preserve insertion order). -/
def dictSet {α : Type} (st : List (String × α)) (n : String) (v : α) : List (String × α) :=
  match st with
  | [] => [(n, v)]
  | (k, w) :: rest => if k = n then (k, v) :: rest else (k, w) :: dictSet rest n v

/-- One record of the state store: `{"original": ..., "current": ...}`
from `envlit/state.py`, each field a string or the null `unset` sentinel. -/
structure VarState where
  original : Option String
  current : Option String
deriving DecidableEq, Repr

/-- The state record of `StateManager._state`: a JSON object mapping
variable names to `VarState` records, as an insertion-ordered dict. -/
abbrev StateRec := List (String × VarState)

/-- `StateManager.update_variable` from `envlit/state.py`: the
Compare-and-Swap rule.  Scenario 1: unknown name is recorded as
`{original: actual, current: target}`.  Scenario 2: `actual` equals the
stored current, so the original is kept and current becomes `target`.
Scenario 3: manual interference, the original becomes `actual` and
current becomes `target`. -/
def update_variable (st : StateRec) (n : String) (actual target : Option String) : StateRec :=
  match dictGet st n with
  | none => dictSet st n ⟨actual, target⟩
  | some r =>
    if actual = r.current then dictSet st n ⟨r.original, target⟩
    else dictSet st n ⟨actual, target⟩

/-- `StateManager.get_original_value` from `envlit/state.py`. -/
def get_original_value (st : StateRec) (n : String) : Option String :=
  match dictGet st n with
  | some r => r.original
  | none => none

/-- `StateManager.get_tracked_variables` from `envlit/state.py`:
`list(self._state.keys())`. -/
def get_tracked_variables (st : StateRec) : List String :=
  st.map Prod.fst

/-- `StateManager._load_state` from `envlit/state.py`, modelled over the
outcome of `json.loads(os.environ.get(self.state_var, "\x7b\x7d"))`: a parse
error (`json.JSONDecodeError`) is caught and yields the empty dict. -/
def load_state (parsed : Except String StateRec) : StateRec :=
  match parsed with
  | .ok st => st
  | .error _ => []

/-- One hexadecimal digit, lower case, for the JSON control-character escape. -/
def hexDigit (n : Nat) : Char :=
  if n < 10 then Char.ofNat (48 + n) else Char.ofNat (87 + n)

/-- `json.dumps` escaping of a single character inside a JSON string
(ASCII fragment: the named escapes, and other control characters as
a four-digit unicode escape). -/
def jsonEscapeChar (c : Char) : String :=
  if c = Char.ofNat 34 then "\\\""
  else if c = Char.ofNat 92 then "\\\\"
  else if c = Char.ofNat 10 then "\\n"
  else if c = Char.ofNat 13 then "\\r"
  else if c = Char.ofNat 9 then "\\t"
  else if c = Char.ofNat 8 then "\\b"
  else if c = Char.ofNat 12 then "\\f"
  else if c.toNat < 32 then
    "\\u00" ++ String.mk [hexDigit (c.toNat / 16), hexDigit (c.toNat % 16)]
  else String.mk [c]

/-- A JSON string literal for `s`, per `json.dumps`. -/
def jsonString (s : String) : String :=
  "\"" ++ String.join (s.data.map jsonEscapeChar) ++ "\""

/-- A JSON value for a string-or-null Python value, per `json.dumps`. -/
def jsonOptString (v : Option String) : String :=
  match v with
  | none => "null"
  | some s => jsonString s

/-- The `json.dumps` encoding of one `VarState` record. -/
def jsonVarState (r : VarState) : String :=
  "\x7b" ++ jsonString "original" ++ ": " ++ jsonOptString r.original ++ ", " ++
    jsonString "current" ++ ": " ++ jsonOptString r.current ++ "\x7d"

/-- The `json.dumps` encoding of a whole state record (insertion order,
default separators), as serialised by `track_end` in `envlit/internal.py`. -/
def jsonDumpsState (st : StateRec) : String :=
  "\x7b" ++ String.intercalate ", "
    (st.map (fun e => jsonString e.1 ++ ": " ++ jsonVarState e.2)) ++ "\x7d"

/-- `SNAPSHOT_VAR_NAME` from `envlit/constants.py`. -/
def snapshotVarName : String := "__ENVLIT_SNAPSHOT_A"

/-- The changed variable names computed by `track_end` in
`envlit/internal.py`: every name in `set(A) | set(B)` other than the
snapshot variable itself whose value differs between snapshot A and
snapshot B (a missing key reads as the unset sentinel). -/
def changedNames (a b : List (String × String)) : List String :=
  ((a.map Prod.fst ++ b.map Prod.fst).dedup).filter
    (fun n => n != snapshotVarName && dictGet a n != dictGet b n)

/-- The Compare-and-Swap loop of `track_end`: fold `update_variable`
over a list of names, with `actual` drawn from snapshot A and `target`
from snapshot B. -/
def updRun (a b : List (String × String)) (st : StateRec) (ns : List String) : StateRec :=
  ns.foldl (fun s n => update_variable s n (dictGet a n) (dictGet b n)) st

/-- The state record produced by the diff-and-update part of `track_end`
(`envlit/internal.py`): apply the Compare-and-Swap rule to every changed
name. -/
def trackEndUpdate (st : StateRec) (a b : List (String × String)) : StateRec :=
  updRun a b st (changedNames a b)

/-- `track_end` from `envlit/internal.py`, modelled over the outcome of
`json.loads` on the snapshot variable.  The call
`json.loads(os.environ.get(SNAPSHOT_VAR_NAME, "\x7b\x7d"))` is not guarded:
a decode error propagates out of the function (the CLI wrapper then
prints the error and exits non-zero), so the result is the updated state
record whose serialisation the function exports, or the error. -/
def track_end (snapParsed : Except String (List (String × String)))
    (envB : List (String × String)) (statePrior : StateRec) : Except String StateRec :=
  match snapParsed with
  | .error e => .error e
  | .ok a => .ok (trackEndUpdate statePrior a envB)

/-- Worker for `replaceChars`: the fuel only bounds the recursion depth
(one unit per character consumed); with fuel at least the length of the
text the fallback branch is unreachable. -/
def replaceCharsGo (pat rep : List Char) : Nat → List Char → List Char
  | _, [] => []
  | 0, s => s
  | fuel + 1, c :: cs =>
    if pat ≠ [] ∧ pat.isPrefixOf (c :: cs) then
      rep ++ replaceCharsGo pat rep fuel ((c :: cs).drop pat.length)
    else
      c :: replaceCharsGo pat rep fuel cs

/-- Python `s.replace(pat, rep)` on character lists: replace every
non-overlapping occurrence of `pat`, scanning left to right.  (A
non-empty pattern consumes at least one character per step; the code
never replaces an empty pattern.) -/
def replaceChars (pat rep : List Char) (s : List Char) : List Char :=
  replaceCharsGo pat rep s.length s

/-- Python `s.replace(pat, rep)` on strings. -/
def pyReplace (s pat rep : String) : String :=
  String.mk (replaceChars pat.data rep.data s.data)

/-- The value escaping used by `track_restore` in `envlit/internal.py`:
`original.replace("\\", "\\\\").replace(CHR34, BACKSLASH CHR34)` — it
doubles backslashes and backslash-escapes double quotes, and nothing else. -/
def restoreEscape (original : String) : String :=
  pyReplace (pyReplace original "\\" "\\\\") "\"" "\\\""

/-- `track_restore` from `envlit/internal.py`, modelled over the raw
state variable (`os.environ.get(state_var)`) and the outcome of parsing
it (the `StateManager` state).  Emits, for every tracked name, either
`unset NAME` (original was the unset sentinel) or
`export NAME="<restoreEscape original>"`, unconditionally, then unsets
the state variable. -/
def track_restore (stateVar : String) (stateRaw : Option String)
    (parsed : Except String StateRec) : String :=
  let st := load_state parsed
  if stateRaw.getD "" = "" then "# No envlit state found to restore"
  else if st = [] then "unset " ++ stateVar
  else
    let commands :=
      ["# Restoring environment to original state"] ++
        (get_tracked_variables st).map (fun n =>
          match get_original_value st n with
          | none => "unset " ++ n
          | some original => "export " ++ n ++ "=\"" ++ restoreEscape original ++ "\"") ++
        ["unset " ++ stateVar]
    String.intercalate "\n" commands

/-- Worker for `subSplit`, meaningful only for a non-empty separator
(`pySplit` raises before reaching this point on an empty one): the fuel
only bounds the recursion depth (one unit per character consumed); with
fuel at least the length of the text the fallback branch is
unreachable. -/
def subSplitGo (sep : List Char) : Nat → List Char → List (List Char)
  | _, [] => [[]]
  | 0, s => [s]
  | fuel + 1, c :: cs =>
    if sep ≠ [] ∧ sep.isPrefixOf (c :: cs) then
      [] :: subSplitGo sep fuel ((c :: cs).drop sep.length)
    else
      (subSplitGo sep fuel cs).modifyHead (fun l => c :: l)

/-- Python `s.split(sep)` on character lists, for a non-empty separator:
non-overlapping occurrences of `sep`, scanned left to right, cut the list;
`n` occurrences yield `n + 1` (possibly empty) components.  (A non-empty
separator consumes at least one character per step; the empty-separator
error of Python lives in `pySplit`.) -/
def subSplit (sep : List Char) (s : List Char) : List (List Char) :=
  subSplitGo sep s.length s

/-- The component list of Python `s.split(sep)` on strings, for a
non-empty separator. -/
def splitComponents (s sep : String) : List String :=
  (subSplit sep.data s.data).map (fun l => String.mk l)

/-- Python `s.split(sep)` on strings: an empty separator raises
`ValueError: empty separator` (modelled as `Except.error`), otherwise
the component list. -/
def pySplit (s sep : String) : Except String (List String) :=
  if sep = "" then .error "empty separator"
  else .ok (splitComponents s sep)

/-- Python `sep.join(parts)` on strings. -/
def pyJoin (sep : String) (parts : List String) : String :=
  String.mk (List.intercalate sep.data (parts.map String.data))

/-- An operation record from a profile's `env` section
(`envlit/operations.py`): the `op` tag, its `value`, and the optional
`separator` field (`operation.get("separator", ":")` supplies the colon
default at use sites). -/
structure Operation where
  op : String
  value : String
  separator : Option String
deriving DecidableEq, Repr

/-- `apply_operation` from `envlit/operations.py`.  `set` produces the
value, `unset` produces the unset sentinel, `prepend`/`append` attach the
value with the separator (the bare value when the current value is unset
or empty), `remove` splits the current value (raising when the separator
is the empty string), drops components that are empty or equal to the
value, and rejoins; an unknown tag raises `ValueError` (modelled, like
the split's `ValueError`, as `Except.error`). -/
def applyOperation (currentValue : Option String) (operation : Operation) :
    Except String (Option String) :=
  if operation.op = "set" then .ok (some operation.value)
  else if operation.op = "unset" then .ok none
  else if operation.op = "prepend" then
    let separator := operation.separator.getD ":"
    .ok (if currentValue = none ∨ currentValue = some "" then some operation.value
         else some (operation.value ++ separator ++ currentValue.getD ""))
  else if operation.op = "append" then
    let separator := operation.separator.getD ":"
    .ok (if currentValue = none ∨ currentValue = some "" then some operation.value
         else some (currentValue.getD "" ++ separator ++ operation.value))
  else if operation.op = "remove" then
    let separator := operation.separator.getD ":"
    if currentValue = none ∨ currentValue = some "" then .ok none
    else
      match pySplit (currentValue.getD "") separator with
      | .error e => .error e
      | .ok pieces =>
        let parts := pieces.filter (fun p => p != "" && p != operation.value)
        .ok (if parts = [] then none else some (pyJoin separator parts))
  else .error ("Unknown operation: " ++ operation.op)

/-- `apply_operations` from `envlit/operations.py`: thread the value
through the pipeline; a raised `ValueError` aborts the pipeline. -/
def applyOperations (initialValue : Option String) (operations : List Operation) :
    Except String (Option String) :=
  operations.foldlM (fun cur operation => applyOperation cur operation) initialValue

/-- The loop body of `apply_path_operations` from `envlit/path_ops.py`:
`prepend` inserts at the front, `append` at the back, `remove` filters;
any other tag is silently skipped, and the per-operation `separator`
field is never consulted. -/
def pathStep (currentPaths : List String) (operation : Operation) : List String :=
  if operation.op = "prepend" then operation.value :: currentPaths
  else if operation.op = "append" then currentPaths ++ [operation.value]
  else if operation.op = "remove" then currentPaths.filter (fun p => p != operation.value)
  else currentPaths

/-- `apply_path_operations` from `envlit/path_ops.py`: split the original
value on the default separator discarding empty components, fold the
operations over the component list, and rejoin with the default
separator. -/
def applyPathOperations (original : Option String) (operations : List Operation)
    (defaultSeparator : String) : String :=
  let orig := original.getD ""
  let initPaths : List String :=
    if orig = "" then [] else (splitComponents orig defaultSeparator).filter (fun p => p != "")
  pyJoin defaultSeparator (operations.foldl pathStep initPaths)

/-- A hook record from a profile's `hooks` section (`envlit/config.py`):
a human-readable name and a script string passed verbatim to the shell. -/
structure Hook where
  name : String
  script : String
deriving DecidableEq, Repr

/-- The `hooks` portion of `_merge_configs` from `envlit/config.py`:
for every phase present in the override (child), assign
`result[phase] = result.get(phase, []) + override[phase]` into the base
(parent) hook dict; phases only in the base are kept as they are. -/
def mergeHooks (base override : List (String × List Hook)) : List (String × List Hook) :=
  override.foldl (fun result e => dictSet result e.1 ((dictGet result e.1).getD [] ++ e.2)) base

/-- One flag declared in a profile's `flags` section, as
`DynamicFlagCommand.parse_args` (`envlit/cli.py`) registers it: `name`
is the key in the `flags` mapping (the loop variable `flag_name`);
`kwargKey` is the parameter name click derives from the flag spellings
`flag_config.get("flag", ["--" ++ name])` (longest long option, dashes
turned to underscores), the key under which the value appears in
`kwargs`; `defaultValue` is `flag_config.get("default", None)`. -/
structure FlagDecl where
  name : String
  kwargKey : String
  defaultValue : Option String
deriving DecidableEq, Repr

/-- The value click binds for a registered option: the user-supplied
value when the option was given on the command line (indexed by the
derived parameter name), else the declared default. -/
def clickResolve (supplied : String → Option String) (key : String)
    (declaredDefault : Option String) : Option String :=
  match supplied key with
  | some v => some v
  | none => declaredDefault

/-- The options `DynamicFlagCommand.parse_args` registers: one per
declared flag, in profile order, skipping a flag whose declared name
already equals the parameter name of a previously registered dynamic
option (`if any(p.name == flag_name for p in self.params): continue`).
Flags colliding with the command's built-in parameters (`profile`,
`config`, the help option) are outside this model's scope. -/
def registeredFlags (declared : List FlagDecl) : List FlagDecl :=
  declared.foldl (fun regs f =>
    if (regs.map FlagDecl.kwargKey).contains f.name then regs else regs ++ [f]) []

/-- The `kwargs` mapping click hands to `load` (`envlit/cli.py`): one
entry per registered option, keyed by the derived parameter name,
holding the click-resolved value; later options overwrite earlier ones
at the same parameter name. -/
def clickKwargs (declared : List FlagDecl) (supplied : String → Option String) :
    List (String × Option String) :=
  (registeredFlags declared).foldl
    (fun acc f => dictSet acc f.kwargKey (clickResolve supplied f.kwargKey f.defaultValue)) []

/-- One iteration of the `flag_values` collection loop of `load` in
`envlit/cli.py` over a declared flag name: `if flag_name in kwargs and
kwargs[flag_name] is not None: flag_values[flag_name] =
kwargs[flag_name]` — a name absent from `kwargs`, or present with value
`None`, contributes nothing. -/
def collectStep (kwargs : List (String × Option String)) (acc : List (String × String))
    (flagName : String) : List (String × String) :=
  match dictGet kwargs flagName with
  | some (some v) => dictSet acc flagName v
  | _ => acc

/-- The `flag_values` dict collected by `load` in `envlit/cli.py`:
iterate the declared flag names in profile order over the click
`kwargs`, keeping the names bound in `kwargs` to a non-`None` value. -/
def collectFlagValues (declared : List FlagDecl)
    (supplied : String → Option String) : List (String × String) :=
  (declared.map FlagDecl.name).foldl (collectStep (clickKwargs declared supplied)) []

deriving instance DecidableEq for Except

/-- The side condition under which a `track_end` re-run leaves a changed
name's record unchanged: the name is untracked in the prior state, or its
stored current differs from snapshot A's value, or its stored original
already equals snapshot A's value. -/
def condOk (st : StateRec) (a : List (String × String)) (n : String) : Bool :=
  match dictGet st n with
  | none => true
  | some r => r.current != dictGet a n || r.original == dictGet a n

theorem dictGet_dictSet_self {α : Type} (st : List (String × α)) (n : String) (v : α) :
    dictGet (dictSet st n v) n = some v := by
  induction st with
  | nil => simp [dictSet, dictGet]
  | cons e rest ih =>
    obtain ⟨k, w⟩ := e
    by_cases hk : k = n
    · simp [dictSet, dictGet, hk]
    · simp [dictSet, dictGet, hk, ih]

theorem dictGet_dictSet_ne {α : Type} (st : List (String × α)) {m n : String} (v : α)
    (h : m ≠ n) : dictGet (dictSet st n v) m = dictGet st m := by
  have hnm : n ≠ m := Ne.symm h
  induction st with
  | nil => simp [dictSet, dictGet, hnm]
  | cons e rest ih =>
    obtain ⟨k, w⟩ := e
    by_cases hk : k = n
    · subst hk
      simp [dictSet, dictGet, hnm]
    · simp [dictSet, dictGet, hk, ih]

theorem dictSet_eq_self {α : Type} {st : List (String × α)} {n : String} {v : α}
    (h : dictGet st n = some v) : dictSet st n v = st := by
  induction st with
  | nil => simp [dictGet] at h
  | cons e rest ih =>
    obtain ⟨k, w⟩ := e
    by_cases hk : k = n
    · subst hk
      simp [dictGet] at h
      simp [dictSet, h]
    · simp [dictGet, hk] at h
      simp [dictSet, hk, ih h]

theorem dictGet_eq_none_of_not_mem {α : Type} {st : List (String × α)} {n : String}
    (h : n ∉ st.map Prod.fst) : dictGet st n = none := by
  induction st with
  | nil => rfl
  | cons e rest ih =>
    simp only [List.map_cons, List.mem_cons] at h
    push_neg at h
    have hk : e.1 ≠ n := Ne.symm h.1
    obtain ⟨k, w⟩ := e
    simpa [dictGet, hk] using ih h.2

theorem update_variable_lookup_self (st : StateRec) (n : String) (actual target : Option String) :
    dictGet (update_variable st n actual target) n =
      some (match dictGet st n with
            | none => ⟨actual, target⟩
            | some r => if actual = r.current then ⟨r.original, target⟩ else ⟨actual, target⟩) := by
  unfold update_variable
  cases hr : dictGet st n with
  | none => simp [dictGet_dictSet_self]
  | some r =>
    by_cases hc : actual = r.current
    · simp [hc, dictGet_dictSet_self]
    · simp [hc, dictGet_dictSet_self]

theorem update_variable_frame (st : StateRec) {m n : String} (actual target : Option String)
    (h : m ≠ n) : dictGet (update_variable st n actual target) m = dictGet st m := by
  unfold update_variable
  cases dictGet st n with
  | none => exact dictGet_dictSet_ne st _ h
  | some r =>
    by_cases hc : actual = r.current
    · simp only [hc, if_pos rfl]
      exact dictGet_dictSet_ne st _ h
    · simp only [if_neg hc]
      exact dictGet_dictSet_ne st _ h

/-- Claim C1: `update_variable name actual target` records, at `name`,
`{original: actual, current: target}` when the name is untracked; keeps
the stored original and sets current to `target` when `actual` equals
the stored current; otherwise adopts `actual` as the new original and
sets current to `target`.  No other entry of the store changes. -/
theorem claim_C1_update_rule (st : StateRec) (n : String) (actual target : Option String) :
    (dictGet st n = none →
      dictGet (update_variable st n actual target) n = some ⟨actual, target⟩) ∧
    (∀ r, dictGet st n = some r → actual = r.current →
      dictGet (update_variable st n actual target) n = some ⟨r.original, target⟩) ∧
    (∀ r, dictGet st n = some r → actual ≠ r.current →
      dictGet (update_variable st n actual target) n = some ⟨actual, target⟩) ∧
    (∀ m, m ≠ n → dictGet (update_variable st n actual target) m = dictGet st m) := by
  refine ⟨?_, ?_, ?_, ?_⟩
  · intro h0
    rw [update_variable_lookup_self, h0]
  · intro r hr hc
    rw [update_variable_lookup_self, hr]
    simp [hc]
  · intro r hr hc
    rw [update_variable_lookup_self, hr]
    simp [hc]
  · intro m hm
    exact update_variable_frame st actual target hm

/-- Witness for claim C1 at a concrete store: a consecutive load keeps the
original, and an unrelated entry is untouched. -/
theorem claim_C1_update_rule_witness :
    dictGet (update_variable
        [("CUDA", ⟨some "0", some "1"⟩), ("MODE", ⟨none, some "dev"⟩)]
        "CUDA" (some "1") (some "2")) "CUDA" = some ⟨some "0", some "2"⟩ ∧
    dictGet (update_variable
        [("CUDA", ⟨some "0", some "1"⟩), ("MODE", ⟨none, some "dev"⟩)]
        "CUDA" (some "1") (some "2")) "MODE" = some ⟨none, some "dev"⟩ := by
  have h := claim_C1_update_rule
    [("CUDA", ⟨some "0", some "1"⟩), ("MODE", ⟨none, some "dev"⟩)]
    "CUDA" (some "1") (some "2")
  refine ⟨h.2.1 ⟨some "0", some "1"⟩ (by decide) (by decide), ?_⟩
  rw [h.2.2.2 "MODE" (by decide)]
  decide

/-- Claim C2 (code-bug evidence): `track_restore` restores a tracked
variable to its stored original unconditionally — its output does not
depend on the variable's ambient value at all.  With the state record
`DEBUG ↦ {original: null, current: "true"}` and the user having set
`DEBUG` to `"false"` (≠ the recorded current), the emitted script still
contains `unset DEBUG`, so evaluating it leaves `DEBUG` unset (the
original), not at the user's value. -/
theorem claim_C2_restore_ignores_user_value :
    track_restore "__ENVLIT_STATE_abc"
      (some "\x7b\"DEBUG\": \x7b\"original\": null, \"current\": \"true\"\x7d\x7d")
      (.ok [("DEBUG", ⟨none, some "true"⟩)]) =
      "# Restoring environment to original state\nunset DEBUG\nunset __ENVLIT_STATE_abc" := by
  decide

/-- Claim C3 (code-bug evidence): the escaping used by `track_restore`
leaves the dollar sign untouched, so for the original value `$HOME` the
emitted command is `export X="$HOME"` — a double-quoted form in which
the dollar sign is not backslash-escaped, contrary to the claim. -/
theorem claim_C3_dollar_not_escaped :
    restoreEscape "$HOME" = "$HOME" ∧
    track_restore "__ENVLIT_STATE_abc"
      (some "\x7b\"X\": \x7b\"original\": \"$HOME\", \"current\": \"v\"\x7d\x7d")
      (.ok [("X", ⟨some "$HOME", some "v"⟩)]) =
      "# Restoring environment to original state\nexport X=\"$HOME\"\nunset __ENVLIT_STATE_abc" := by
  decide

/-- Claim C4 (code-bug evidence): `track_end` does not guard the
`json.loads` of the snapshot variable, so a malformed snapshot makes the
whole end phase fail (the error propagates; the CLI wrapper exits
non-zero and no state export is produced) instead of falling back to an
empty snapshot. -/
theorem claim_C4_malformed_snapshot_fails (e : String) (envB : List (String × String))
    (statePrior : StateRec) :
    track_end (Except.error e) envB statePrior = Except.error e := rfl

/-- Claim C10: constructing the state store from a state variable whose
content is not valid JSON never raises — the store starts empty, its
tracked-variable list is empty, and its serialisation is the empty JSON
object. -/
theorem claim_C10_invalid_json_empty_store (e : String) :
    load_state (Except.error e) = [] ∧
    get_tracked_variables (load_state (Except.error e)) = [] ∧
    jsonDumpsState (load_state (Except.error e)) = "\x7b\x7d" :=
  ⟨rfl, rfl, rfl⟩

/-- Counterexample to claim C6: a `remove` record may carry the empty
string as its separator, and there Python's `str.split` raises
`ValueError: empty separator`, so `apply_operation` raises instead of
producing the unset-or-rejoined result the claim asserts for every
remove operation record. -/
theorem claim_C6_counterexample :
    applyOperation (some "a") ⟨"remove", "x", some ""⟩ = Except.error "empty separator" := by
  decide

/-- Claim C6 as amended (restricted to separators that are absent or
non-empty; an empty separator makes the split raise): the `remove`
operation produces the unset sentinel when the current value is unset or
empty; otherwise it splits the current value on the separator, drops
every component that is empty or equal to the operation's value, and
rejoins with the separator, producing the unset sentinel when no
component remains. -/
theorem claim_C6_remove_semantics (cur : Option String) (v : String) (sep : Option String)
    (hsep : sep ≠ some "") :
    applyOperation cur ⟨"remove", v, sep⟩ =
      (if cur = none ∨ cur = some "" then Except.ok none
       else
         let comps := (splitComponents (cur.getD "") (sep.getD ":")).filter
           (fun p => p != "" && p != v)
         if comps = [] then Except.ok none
         else Except.ok (some (pyJoin (sep.getD ":") comps))) := by
  have hsep2 : sep.getD ":" ≠ "" := by
    cases sep with
    | none => decide
    | some t =>
      simp only [Option.getD_some]
      intro ht
      exact hsep (by rw [ht])
  have hstep : applyOperation cur ⟨"remove", v, sep⟩ =
      (if cur = none ∨ cur = some "" then .ok none
       else
         match pySplit (cur.getD "") (sep.getD ":") with
         | .error e => .error e
         | .ok pieces =>
           let parts := pieces.filter (fun p => p != "" && p != v)
           .ok (if parts = [] then none else some (pyJoin (sep.getD ":") parts))) := rfl
  have hpys : pySplit (cur.getD "") (sep.getD ":") =
      .ok (splitComponents (cur.getD "") (sep.getD ":")) := by
    unfold pySplit
    rw [if_neg hsep2]
  rw [hstep, hpys]
  by_cases h0 : cur = none ∨ cur = some ""
  · simp [h0]
  · simp only [if_neg h0]
    exact apply_ite Except.ok _ _ _

/-- Witness for claim C6 as amended: remove `a` from `a:b:a` with the
default separator. -/
theorem claim_C6_remove_semantics_witness :
    applyOperation (some "a:b:a") ⟨"remove", "a", none⟩ = Except.ok (some "b") := by
  rw [claim_C6_remove_semantics (some "a:b:a") "a" none (by decide)]
  decide

/-- Claim C7: merging a child profile into its parent concatenates the
hook lists per phase — parent hooks first, child hooks after; a phase
absent from one side contributes the empty list. -/
theorem claim_C7_hooks_concatenation (base override : List (String × List Hook))
    (h : (override.map Prod.fst).Nodup) (phase : String) :
    (dictGet (mergeHooks base override) phase).getD [] =
      (dictGet base phase).getD [] ++ (dictGet override phase).getD [] := by
  induction override generalizing base with
  | nil => simp [mergeHooks, dictGet]
  | cons e rest ih =>
    obtain ⟨ht, hs⟩ := e
    simp only [List.map_cons, List.nodup_cons] at h
    have hmerge : mergeHooks base ((ht, hs) :: rest) =
        mergeHooks (dictSet base ht ((dictGet base ht).getD [] ++ hs)) rest := rfl
    rw [hmerge, ih _ h.2]
    by_cases hp : phase = ht
    · subst hp
      rw [dictGet_dictSet_self]
      rw [dictGet_eq_none_of_not_mem h.1]
      simp [dictGet]
    · rw [dictGet_dictSet_ne _ _ hp]
      have hcons : dictGet ((ht, hs) :: rest) phase = dictGet rest phase := by
        simp [dictGet, Ne.symm hp]
      rw [hcons]

/-- Witness for claim C7 at spec scenario 5: parent `pre_load` hook
`echo B`, child `pre_load` hook `echo C`; the merge yields `B` then `C`. -/
theorem claim_C7_hooks_concatenation_witness :
    (dictGet (mergeHooks [("pre_load", [⟨"B", "echo B"⟩])]
        [("pre_load", [⟨"C", "echo C"⟩])]) "pre_load").getD [] =
      [⟨"B", "echo B"⟩, ⟨"C", "echo C"⟩] := by
  rw [claim_C7_hooks_concatenation [("pre_load", [⟨"B", "echo B"⟩])]
    [("pre_load", [⟨"C", "echo C"⟩])] (by decide) "pre_load"]
  decide

theorem collectGo_frame (kwargs : List (String × Option String)) (names : List String)
    (acc : List (String × String)) {f : String} (hf : f ∉ names) :
    dictGet (names.foldl (collectStep kwargs) acc) f = dictGet acc f := by
  induction names generalizing acc with
  | nil => rfl
  | cons g tail ih =>
    simp only [List.mem_cons] at hf
    push_neg at hf
    rw [List.foldl_cons, ih (collectStep kwargs acc g) hf.2]
    unfold collectStep
    cases dictGet kwargs g with
    | none => rfl
    | some w =>
      cases w with
      | none => rfl
      | some v => exact dictGet_dictSet_ne acc v hf.1

theorem collectGo_mem (kwargs : List (String × Option String)) (names : List String)
    (acc : List (String × String)) {f : String} (hnd : names.Nodup) (hmem : f ∈ names)
    (hacc : dictGet acc f = none) :
    dictGet (names.foldl (collectStep kwargs) acc) f = (dictGet kwargs f).join := by
  induction names generalizing acc with
  | nil => simp at hmem
  | cons g tail ih =>
    simp only [List.nodup_cons] at hnd
    rw [List.foldl_cons]
    by_cases hfg : f = g
    · subst hfg
      rw [collectGo_frame kwargs tail _ hnd.1]
      unfold collectStep
      cases hk : dictGet kwargs f with
      | none => simpa using hacc
      | some w =>
        cases w with
        | none => simpa using hacc
        | some v => simp [dictGet_dictSet_self]
    · have hmem2 : f ∈ tail := by
        rcases List.mem_cons.mp hmem with h1 | h1
        · exact absurd h1 hfg
        · exact h1
      have hacc2 : dictGet (collectStep kwargs acc g) f = none := by
        unfold collectStep
        cases dictGet kwargs g with
        | none => exact hacc
        | some w =>
          cases w with
          | none => exact hacc
          | some v => rw [dictGet_dictSet_ne acc v hfg]; exact hacc
      exact ih (collectStep kwargs acc g) hnd.2 hmem2 hacc2

/-- Counterexample to claim C8: a flag declared with the non-null
default `"0"` (and the default spelling, so its declared name is also
its derived parameter name) and never supplied by the user is
nevertheless collected into the flag-value mapping — click fills the
declared default into `kwargs`, and the collection loop only tests
membership and `is not None`. -/
theorem claim_C8_counterexample :
    (fun _ => (none : Option String)) "cuda" = none ∧
    collectFlagValues [⟨"cuda", "cuda", some "0"⟩] (fun _ => none) = [("cuda", "0")] := by
  exact ⟨rfl, by decide⟩

/-- Claim C8 as amended: the collected flag-value mapping binds a name
`f` exactly when `f` is a declared flag name and the click `kwargs`
(keyed by the parameter names derived from the flag spellings) holds a
non-null value under `f` itself.  Hence a flag whose declared name
equals its derived parameter name and is not supplied by the user
contributes an export precisely when its declared default is non-null —
declared non-null defaults are materialised — while a flag whose
declared name matches no registered parameter name is never collected,
even when supplied. -/
theorem claim_C8_amended (declared : List FlagDecl) (supplied : String → Option String)
    (h : (declared.map FlagDecl.name).Nodup) (f : String) :
    dictGet (collectFlagValues declared supplied) f =
      (if f ∈ declared.map FlagDecl.name
       then (dictGet (clickKwargs declared supplied) f).join
       else none) := by
  unfold collectFlagValues
  by_cases hmem : f ∈ declared.map FlagDecl.name
  · rw [if_pos hmem]
    exact collectGo_mem (clickKwargs declared supplied) (declared.map FlagDecl.name) [] h
      hmem rfl
  · rw [if_neg hmem]
    rw [collectGo_frame (clickKwargs declared supplied) _ [] hmem]
    rfl

/-- Witness for claim C8 as amended: `cuda` has declared default `"0"`,
the default spelling, and no user value, so it is materialised; `gpu` is
spelled `--dev` (derived parameter name `dev`) and supplied `"7"`, yet
it is never collected because its declared name is not a `kwargs` key. -/
theorem claim_C8_amended_witness :
    dictGet (collectFlagValues
        [⟨"cuda", "cuda", some "0"⟩, ⟨"gpu", "dev", some "1"⟩]
        (fun k => if k = "dev" then some "7" else none)) "cuda" = some "0" ∧
    dictGet (collectFlagValues
        [⟨"cuda", "cuda", some "0"⟩, ⟨"gpu", "dev", some "1"⟩]
        (fun k => if k = "dev" then some "7" else none)) "gpu" = none := by
  refine ⟨?_, ?_⟩
  · rw [claim_C8_amended [⟨"cuda", "cuda", some "0"⟩, ⟨"gpu", "dev", some "1"⟩]
      (fun k => if k = "dev" then some "7" else none) (by decide) "cuda"]
    decide
  · rw [claim_C8_amended [⟨"cuda", "cuda", some "0"⟩, ⟨"gpu", "dev", some "1"⟩]
      (fun k => if k = "dev" then some "7" else none) (by decide) "gpu"]
    decide

theorem updRun_cons (a b : List (String × String)) (st : StateRec) (n : String)
    (rest : List String) :
    updRun a b st (n :: rest) =
      updRun a b (update_variable st n (dictGet a n) (dictGet b n)) rest := rfl

theorem updRun_frame (a b : List (String × String)) (st : StateRec) (ns : List String)
    {m : String} (h : m ∉ ns) : dictGet (updRun a b st ns) m = dictGet st m := by
  induction ns generalizing st with
  | nil => rfl
  | cons n rest ih =>
    simp only [List.mem_cons] at h
    push_neg at h
    rw [updRun_cons, ih _ h.2]
    exact update_variable_frame st _ _ h.1

theorem condOk_congr {st st' : StateRec} (a : List (String × String)) {n : String}
    (h : dictGet st' n = dictGet st n) : condOk st' a n = condOk st a n := by
  unfold condOk
  rw [h]

theorem update_new_of_condOk {st : StateRec} {a : List (String × String)} {n : String}
    (hc : condOk st a n = true) (bn : Option String) :
    dictGet (update_variable st n (dictGet a n) bn) n = some ⟨dictGet a n, bn⟩ := by
  rw [update_variable_lookup_self]
  unfold condOk at hc
  cases hst : dictGet st n with
  | none => simp [hst]
  | some r =>
    rw [hst] at hc
    simp only [Bool.or_eq_true, bne_iff_ne, ne_eq, beq_iff_eq] at hc
    by_cases he : dictGet a n = r.current
    · have ho : r.original = dictGet a n := by
        rcases hc with h1 | h1
        · exact absurd he.symm h1
        · exact h1
      simp [hst, he, ho]
    · simp [hst, he]

theorem updRun_lookup (a b : List (String × String)) (st : StateRec) (ns : List String)
    {n : String} (hnd : ns.Nodup) (hmem : n ∈ ns) (hc : condOk st a n = true) :
    dictGet (updRun a b st ns) n = some ⟨dictGet a n, dictGet b n⟩ := by
  induction ns generalizing st with
  | nil => simp at hmem
  | cons m rest ih =>
    rw [List.nodup_cons] at hnd
    rw [updRun_cons]
    by_cases hnm : n = m
    · subst hnm
      rw [updRun_frame _ _ _ _ hnd.1]
      exact update_new_of_condOk hc (dictGet b n)
    · have hmem2 : n ∈ rest := by
        rcases List.mem_cons.mp hmem with h1 | h1
        · exact absurd h1 hnm
        · exact h1
      have hfr : dictGet (update_variable st m (dictGet a m) (dictGet b m)) n = dictGet st n :=
        update_variable_frame st _ _ hnm
      exact ih _ hnd.2 hmem2 ((condOk_congr a hfr).trans hc)

theorem updRun_id (a b : List (String × String)) (st : StateRec) (ns : List String)
    (h : ∀ n ∈ ns, dictGet st n = some ⟨dictGet a n, dictGet b n⟩ ∧ dictGet a n ≠ dictGet b n) :
    updRun a b st ns = st := by
  induction ns with
  | nil => rfl
  | cons m rest ih =>
    have hm := h m (List.mem_cons_self m rest)
    have hupd : update_variable st m (dictGet a m) (dictGet b m) = st := by
      unfold update_variable
      rw [hm.1]
      dsimp only
      rw [if_neg (by simpa using hm.2)]
      exact dictSet_eq_self hm.1
    rw [updRun_cons, hupd]
    exact ih (fun n hn => h n (List.mem_cons_of_mem m hn))

theorem changedNames_nodup (a b : List (String × String)) : (changedNames a b).Nodup :=
  (List.nodup_dedup _).filter _

theorem changedNames_ne (a b : List (String × String)) {n : String}
    (h : n ∈ changedNames a b) : dictGet a n ≠ dictGet b n := by
  unfold changedNames at h
  have hp := List.of_mem_filter h
  simp only [Bool.and_eq_true, bne_iff_ne, ne_eq] at hp
  exact hp.2

/-- Counterexample to claim C5: with prior state
`X ↦ {original: "x", current: "a"}`, snapshot A `X = "a"` and
environment B `X = "b"`, the first end run keeps `original = "x"`
(scenario 2) but the second run rewrites it to `"a"` (scenario 3), so
running the end-phase diff-and-update twice does not equal running it
once. -/
theorem claim_C5_counterexample :
    trackEndUpdate (trackEndUpdate [("X", ⟨some "x", some "a"⟩)] [("X", "a")] [("X", "b")])
        [("X", "a")] [("X", "b")] ≠
      trackEndUpdate [("X", ⟨some "x", some "a"⟩)] [("X", "a")] [("X", "b")] := by
  decide

/-- Claim C5 as amended: the end-phase diff-and-update is idempotent
provided every changed name is untracked in the prior state record, or
has its stored current different from snapshot A's value, or has its
stored original already equal to snapshot A's value (`condOk`); without
that proviso a scenario-2 name's original is rewritten to A's value by
the second run. -/
theorem claim_C5_amended_idempotence (st : StateRec) (a b : List (String × String))
    (h : ∀ n ∈ changedNames a b, condOk st a n = true) :
    trackEndUpdate (trackEndUpdate st a b) a b = trackEndUpdate st a b := by
  have hnd := changedNames_nodup a b
  show updRun a b (trackEndUpdate st a b) (changedNames a b) = trackEndUpdate st a b
  apply updRun_id
  intro n hn
  exact ⟨updRun_lookup a b st _ hnd hn (h n hn), changedNames_ne a b hn⟩

/-- Witness for claim C5 as amended: starting from the empty prior state
(every changed name untracked), a second end run changes nothing. -/
theorem claim_C5_amended_idempotence_witness :
    trackEndUpdate (trackEndUpdate [] [("X", "a")] [("X", "b")]) [("X", "a")] [("X", "b")] =
      trackEndUpdate [] [("X", "a")] [("X", "b")] :=
  claim_C5_amended_idempotence [] [("X", "a")] [("X", "b")] (by decide)

theorem splitOn_cons_eq (c x : Char) (xs : List Char) :
    (x :: xs).splitOn c =
      if x == c then [] :: xs.splitOn c else (xs.splitOn c).modifyHead (List.cons x) := by
  simp [List.splitOn, List.splitOnP_cons]

theorem subSplitGo_single (c : Char) (fuel : Nat) :
    ∀ s : List Char, s.length ≤ fuel → subSplitGo [c] fuel s = s.splitOn c := by
  induction fuel with
  | zero =>
    intro s hs
    have hnil : s = [] := List.eq_nil_of_length_eq_zero (Nat.le_zero.mp hs)
    subst hnil
    simp [subSplitGo, List.splitOn_nil]
  | succ fuel ih =>
    intro s hs
    cases s with
    | nil => simp [subSplitGo, List.splitOn_nil]
    | cons x xs =>
      have hlen : xs.length ≤ fuel := by
        simpa [Nat.succ_le_succ_iff] using hs
      rw [splitOn_cons_eq]
      by_cases hx : x = c
      · subst hx
        have hcond : ([x] ≠ [] ∧ [x].isPrefixOf (x :: xs)) := by
          simp [List.isPrefixOf]
        simp only [subSplitGo, if_pos hcond, List.length_cons, List.length_nil,
          List.drop_succ_cons, List.drop_zero, beq_self_eq_true, if_pos]
        rw [ih xs hlen]
      · have hcond : ¬ ([c] ≠ [] ∧ [c].isPrefixOf (x :: xs)) := by
          simp [List.isPrefixOf]
          intro hcx
          exact absurd hcx.symm hx
        have hbeq : (x == c) = false := by
          simp [hx]
        simp only [subSplitGo, if_neg hcond, hbeq, Bool.false_eq_true, if_false]
        rw [ih xs hlen]

theorem subSplit_single (c : Char) (s : List Char) : subSplit [c] s = s.splitOn c :=
  subSplitGo_single c s.length s le_rfl

theorem pyJoin_data (sep : String) (parts : List String) :
    (pyJoin sep parts).data = List.intercalate sep.data (parts.map String.data) := rfl

theorem pyJoin_nil (sep : String) : pyJoin sep [] = "" := rfl

theorem pyJoin_singleton (sep : String) (p : String) : pyJoin sep [p] = p := by
  apply String.ext
  simp [pyJoin_data, List.intercalate]

theorem pyJoin_cons_cons (sep p q : String) (rest : List String) :
    pyJoin sep (p :: q :: rest) = p ++ sep ++ pyJoin sep (q :: rest) := by
  apply String.ext
  simp [pyJoin_data, List.intercalate, String.data_append, List.append_assoc]

theorem pyJoin_ne_empty (parts : List String) (hne : parts ≠ [])
    (h : ∀ p ∈ parts, p ≠ "") : pyJoin ":" parts ≠ "" := by
  cases parts with
  | nil => exact absurd rfl hne
  | cons p rest =>
    cases rest with
    | nil =>
      rw [pyJoin_singleton]
      exact h p (List.mem_cons_self p [])
    | cons q rest2 =>
      rw [pyJoin_cons_cons]
      intro hc
      have hd : (p ++ ":" ++ pyJoin ":" (q :: rest2)).data = ([] : List Char) := by
        rw [hc]
      simp [String.data_append] at hd

theorem splitComponents_pyJoin_colon (parts : List String) (hne : parts ≠ [])
    (h : ∀ p ∈ parts, ':' ∉ p.data) : splitComponents (pyJoin ":" parts) ":" = parts := by
  have hsep : (":" : String).data = [':'] := rfl
  unfold splitComponents
  rw [hsep]
  have hdata : (pyJoin ":" parts).data =
      List.intercalate [':'] (parts.map String.data) := by
    rw [pyJoin_data, hsep]
  rw [hdata, subSplit_single]
  rw [List.splitOn_intercalate _ ':'
    (by
      intro l hl
      obtain ⟨p, hp, rfl⟩ := List.mem_map.mp hl
      exact h p hp)
    (by simpa using hne)]
  rw [List.map_map]
  have hid : ((fun l => String.mk l) ∘ String.data) = id := by
    funext p
    rfl
  rw [hid, List.map_id]

theorem strAppend_assoc (a b c : String) : a ++ b ++ c = a ++ (b ++ c) := by
  apply String.ext
  simp [String.data_append, List.append_assoc]

theorem pyJoin_append_singleton (paths : List String) (w : String) :
    pyJoin ":" (paths ++ [w]) =
      if paths = [] then w else pyJoin ":" paths ++ ":" ++ w := by
  induction paths with
  | nil => simp [pyJoin_singleton]
  | cons p rest ih =>
    cases rest with
    | nil =>
      simp only [List.cons_append, List.nil_append, pyJoin_cons_cons, pyJoin_singleton]
      simp
    | cons q rest2 =>
      have h1 : ((p :: q :: rest2) ++ [w]) = p :: ((q :: rest2) ++ [w]) := rfl
      have h2 : ((q :: rest2) ++ [w]) = q :: (rest2 ++ [w]) := rfl
      rw [h1, h2, pyJoin_cons_cons, ← h2, ih]
      simp only [List.cons_ne_nil, if_false, reduceCtorEq]
      rw [pyJoin_cons_cons]
      apply String.ext
      simp [String.data_append, List.append_assoc]

theorem rel_nil_cases {v : Option String} {paths : List String}
    (hpaths : ∀ p ∈ paths, p ≠ "" ∧ ':' ∉ p.data)
    (hrel : match v with | none => paths = [] | some s => s = pyJoin ":" paths)
    (hnil : paths = []) : v = none ∨ v = some "" := by
  subst hnil
  cases v with
  | none => exact Or.inl rfl
  | some s =>
    have h2 : s = pyJoin ":" [] := hrel
    exact Or.inr (by rw [h2]; rfl)

theorem rel_cons_cases {v : Option String} {q : String} {rest : List String}
    (hpaths : ∀ p ∈ q :: rest, p ≠ "" ∧ ':' ∉ p.data)
    (hrel : match v with | none => q :: rest = [] | some s => s = pyJoin ":" (q :: rest)) :
    v = some (pyJoin ":" (q :: rest)) ∧ ¬(v = none ∨ v = some "") := by
  have hpj : pyJoin ":" (q :: rest) ≠ "" :=
    pyJoin_ne_empty _ (List.cons_ne_nil q rest) (fun p hp => (hpaths p hp).1)
  cases v with
  | none => exact absurd hrel (List.cons_ne_nil q rest)
  | some s =>
    dsimp only at hrel
    subst hrel
    refine ⟨rfl, ?_⟩
    rintro (h | h)
    · exact Option.noConfusion h
    · exact hpj (Option.some.inj h)

theorem prepend_step_refines (oval : String) (osep : Option String)
    (hsep : osep = none ∨ osep = some ":") (hv : oval ≠ "") (hvc : ':' ∉ oval.data)
    (v : Option String) (paths : List String)
    (hpaths : ∀ p ∈ paths, p ≠ "" ∧ ':' ∉ p.data)
    (hrel : match v with | none => paths = [] | some s => s = pyJoin ":" paths) :
    ∃ w, applyOperation v ⟨"prepend", oval, osep⟩ = .ok w ∧
      (∀ p ∈ pathStep paths ⟨"prepend", oval, osep⟩, p ≠ "" ∧ ':' ∉ p.data) ∧
      (match w with
       | none => pathStep paths ⟨"prepend", oval, osep⟩ = []
       | some s => s = pyJoin ":" (pathStep paths ⟨"prepend", oval, osep⟩)) := by
  have hsepcol : osep.getD ":" = ":" := by rcases hsep with h | h <;> simp [h]
  have happ : applyOperation v ⟨"prepend", oval, osep⟩ =
      .ok (if v = none ∨ v = some "" then some oval
           else some (oval ++ osep.getD ":" ++ v.getD "")) := rfl
  rw [hsepcol] at happ
  have hps : pathStep paths ⟨"prepend", oval, osep⟩ = oval :: paths := rfl
  cases paths with
  | nil =>
    have hv0 := rel_nil_cases hpaths hrel rfl
    refine ⟨some oval, ?_, ?_, ?_⟩
    · rw [happ, if_pos hv0]
    · intro p hp
      rw [hps] at hp
      rcases List.mem_cons.mp hp with rfl | hp2
      · exact ⟨hv, hvc⟩
      · simp at hp2
    · dsimp only
      rw [hps]
      exact (pyJoin_singleton ":" oval).symm
  | cons q rest =>
    obtain ⟨hvs, hcond⟩ := rel_cons_cases hpaths hrel
    refine ⟨some (oval ++ ":" ++ pyJoin ":" (q :: rest)), ?_, ?_, ?_⟩
    · rw [happ, if_neg hcond, hvs]
      rfl
    · intro p hp
      rw [hps] at hp
      rcases List.mem_cons.mp hp with rfl | hp2
      · exact ⟨hv, hvc⟩
      · exact hpaths p hp2
    · dsimp only
      rw [hps, pyJoin_cons_cons]

theorem append_step_refines (oval : String) (osep : Option String)
    (hsep : osep = none ∨ osep = some ":") (hv : oval ≠ "") (hvc : ':' ∉ oval.data)
    (v : Option String) (paths : List String)
    (hpaths : ∀ p ∈ paths, p ≠ "" ∧ ':' ∉ p.data)
    (hrel : match v with | none => paths = [] | some s => s = pyJoin ":" paths) :
    ∃ w, applyOperation v ⟨"append", oval, osep⟩ = .ok w ∧
      (∀ p ∈ pathStep paths ⟨"append", oval, osep⟩, p ≠ "" ∧ ':' ∉ p.data) ∧
      (match w with
       | none => pathStep paths ⟨"append", oval, osep⟩ = []
       | some s => s = pyJoin ":" (pathStep paths ⟨"append", oval, osep⟩)) := by
  have hsepcol : osep.getD ":" = ":" := by rcases hsep with h | h <;> simp [h]
  have happ : applyOperation v ⟨"append", oval, osep⟩ =
      .ok (if v = none ∨ v = some "" then some oval
           else some (v.getD "" ++ osep.getD ":" ++ oval)) := rfl
  rw [hsepcol] at happ
  have hps : pathStep paths ⟨"append", oval, osep⟩ = paths ++ [oval] := rfl
  have hcan : ∀ p ∈ paths ++ [oval], p ≠ "" ∧ ':' ∉ p.data := by
    intro p hp
    rcases List.mem_append.mp hp with hp2 | hp2
    · exact hpaths p hp2
    · rcases List.mem_singleton.mp hp2 with rfl
      exact ⟨hv, hvc⟩
  cases paths with
  | nil =>
    have hv0 := rel_nil_cases hpaths hrel rfl
    refine ⟨some oval, ?_, ?_, ?_⟩
    · rw [happ, if_pos hv0]
    · rw [hps]; exact hcan
    · dsimp only
      rw [hps, pyJoin_append_singleton]
      simp
  | cons q rest =>
    obtain ⟨hvs, hcond⟩ := rel_cons_cases hpaths hrel
    refine ⟨some (pyJoin ":" (q :: rest) ++ ":" ++ oval), ?_, ?_, ?_⟩
    · rw [happ, if_neg hcond, hvs]
      rfl
    · rw [hps]; exact hcan
    · dsimp only
      rw [hps, pyJoin_append_singleton]
      simp

theorem remove_step_refines (oval : String) (osep : Option String)
    (hsep : osep = none ∨ osep = some ":") (hv : oval ≠ "") (hvc : ':' ∉ oval.data)
    (v : Option String) (paths : List String)
    (hpaths : ∀ p ∈ paths, p ≠ "" ∧ ':' ∉ p.data)
    (hrel : match v with | none => paths = [] | some s => s = pyJoin ":" paths) :
    ∃ w, applyOperation v ⟨"remove", oval, osep⟩ = .ok w ∧
      (∀ p ∈ pathStep paths ⟨"remove", oval, osep⟩, p ≠ "" ∧ ':' ∉ p.data) ∧
      (match w with
       | none => pathStep paths ⟨"remove", oval, osep⟩ = []
       | some s => s = pyJoin ":" (pathStep paths ⟨"remove", oval, osep⟩)) := by
  have hsepcol : osep.getD ":" = ":" := by rcases hsep with h | h <;> simp [h]
  have happ : applyOperation v ⟨"remove", oval, osep⟩ =
      (if v = none ∨ v = some "" then .ok none
       else
         match pySplit (v.getD "") (osep.getD ":") with
         | .error e => .error e
         | .ok pieces =>
           let parts := pieces.filter (fun p => p != "" && p != oval)
           .ok (if parts = [] then none else some (pyJoin (osep.getD ":") parts))) := rfl
  rw [hsepcol] at happ
  have hps : pathStep paths ⟨"remove", oval, osep⟩ =
      paths.filter (fun p => p != oval) := rfl
  cases paths with
  | nil =>
    have hv0 := rel_nil_cases hpaths hrel rfl
    refine ⟨none, ?_, ?_, ?_⟩
    · rw [happ, if_pos hv0]
    · rw [hps]
      intro p hp
      simp at hp
    · dsimp only
      rw [hps]
      rfl
  | cons q rest =>
    obtain ⟨hvs, hcond⟩ := rel_cons_cases hpaths hrel
    have hsplit : pySplit (pyJoin ":" (q :: rest)) ":" = .ok (q :: rest) := by
      unfold pySplit
      rw [if_neg (by decide)]
      rw [splitComponents_pyJoin_colon _ (List.cons_ne_nil q rest)
        (fun p hp => (hpaths p hp).2)]
    have hfil : (q :: rest).filter (fun p => p != "" && p != oval) =
        (q :: rest).filter (fun p => p != oval) := by
      apply List.filter_congr
      intro p hp
      have h1 : (p != "") = true := bne_iff_ne.mpr (hpaths p hp).1
      rw [h1, Bool.true_and]
    have happ2 : applyOperation v ⟨"remove", oval, osep⟩ =
        .ok (if (q :: rest).filter (fun p => p != oval) = [] then none
             else some (pyJoin ":" ((q :: rest).filter (fun p => p != oval)))) := by
      rw [happ, if_neg hcond, hvs]
      simp only [Option.getD_some, hsplit, hfil]
    have hcanf : ∀ p ∈ (q :: rest).filter (fun p => p != oval), p ≠ "" ∧ ':' ∉ p.data :=
      fun p hp => hpaths p (List.mem_of_mem_filter hp)
    by_cases hparts : (q :: rest).filter (fun p => p != oval) = []
    · refine ⟨none, ?_, ?_, ?_⟩
      · rw [happ2, if_pos hparts]
      · rw [hps]; exact hcanf
      · dsimp only
        rw [hps]
        exact hparts
    · refine ⟨some (pyJoin ":" ((q :: rest).filter (fun p => p != oval))), ?_, ?_, ?_⟩
      · rw [happ2, if_neg hparts]
      · rw [hps]; exact hcanf
      · dsimp only
        rw [hps]

theorem pathOps_fold_refines (ops : List Operation)
    (hops : ∀ o ∈ ops, (o.op = "prepend" ∨ o.op = "append" ∨ o.op = "remove") ∧
      (o.separator = none ∨ o.separator = some ":") ∧ o.value ≠ "" ∧ ':' ∉ o.value.data)
    (v : Option String) (paths : List String)
    (hpaths : ∀ p ∈ paths, p ≠ "" ∧ ':' ∉ p.data)
    (hrel : match v with | none => paths = [] | some s => s = pyJoin ":" paths) :
    ∃ w, applyOperations v ops = .ok w ∧
      (∀ p ∈ ops.foldl pathStep paths, p ≠ "" ∧ ':' ∉ p.data) ∧
      (match w with
       | none => ops.foldl pathStep paths = []
       | some s => s = pyJoin ":" (ops.foldl pathStep paths)) := by
  induction ops generalizing v paths with
  | nil => exact ⟨v, rfl, hpaths, hrel⟩
  | cons o rest ih =>
    have ho := hops o (List.mem_cons_self o rest)
    obtain ⟨oop, oval, osep⟩ := o
    have hstep : ∃ w, applyOperation v ⟨oop, oval, osep⟩ = .ok w ∧
        (∀ p ∈ pathStep paths ⟨oop, oval, osep⟩, p ≠ "" ∧ ':' ∉ p.data) ∧
        (match w with
         | none => pathStep paths ⟨oop, oval, osep⟩ = []
         | some s => s = pyJoin ":" (pathStep paths ⟨oop, oval, osep⟩)) := by
      rcases ho.1 with hop | hop | hop
      all_goals simp only at hop
      all_goals subst hop
      · exact prepend_step_refines oval osep ho.2.1 ho.2.2.1 ho.2.2.2 v paths hpaths hrel
      · exact append_step_refines oval osep ho.2.1 ho.2.2.1 ho.2.2.2 v paths hpaths hrel
      · exact remove_step_refines oval osep ho.2.1 ho.2.2.1 ho.2.2.2 v paths hpaths hrel
    obtain ⟨w1, hw1, hcan1, hrel1⟩ := hstep
    have happs : applyOperations v (⟨oop, oval, osep⟩ :: rest) = applyOperations w1 rest := by
      unfold applyOperations
      rw [List.foldlM_cons, hw1]
      rfl
    have hfold : (⟨oop, oval, osep⟩ :: rest).foldl pathStep paths =
        rest.foldl pathStep (pathStep paths ⟨oop, oval, osep⟩) := rfl
    rw [happs, hfold]
    exact ih (fun q hq => hops q (List.mem_cons_of_mem _ hq)) w1
      (pathStep paths ⟨oop, oval, osep⟩) hcan1 hrel1

/-- Counterexample to claim C9: `apply_path_operations` ignores an
operation's own `separator` field, so a prepend with separator `;` on
`"a"` yields `"v;a"` through the operation engine but `"v:a"` through
the path-operations routine. -/
theorem claim_C9_counterexample :
    Except.map (fun w => Option.getD w "")
        (applyOperations (some "a") [⟨"prepend", "v", some ";"⟩]) ≠
      Except.ok (applyPathOperations (some "a") [⟨"prepend", "v", some ";"⟩] ":") := by
  decide

/-- Claim C9 as amended: `apply_path_operations` returns the same result
as `apply_operations` (its empty-string result standing for the unset
sentinel) for pipelines of prepend/append/remove operations, provided
every operation's separator field is absent or the default colon, every
operation value is non-empty and colon-free, and the initial value is
unset or a colon-join of non-empty colon-free components. -/
theorem claim_C9_amended_refinement (comps : List String) (ops : List Operation)
    (initial : Option String)
    (hcomps : ∀ p ∈ comps, p ≠ "" ∧ ':' ∉ p.data)
    (hops : ∀ o ∈ ops, (o.op = "prepend" ∨ o.op = "append" ∨ o.op = "remove") ∧
      (o.separator = none ∨ o.separator = some ":") ∧ o.value ≠ "" ∧ ':' ∉ o.value.data)
    (hinit : initial = none ∨ initial = some (pyJoin ":" comps)) :
    Except.map (fun w => Option.getD w "") (applyOperations initial ops) =
      Except.ok (applyPathOperations initial ops ":") := by
  rcases hinit with h | h
  · subst h
    have hap : applyPathOperations none ops ":" = pyJoin ":" (ops.foldl pathStep []) := rfl
    obtain ⟨w, hw, hcan, hrelw⟩ := pathOps_fold_refines ops hops none []
      (by intro p hp; simp at hp) rfl
    rw [hw, hap]
    cases w with
    | none =>
      have hfold : ops.foldl pathStep [] = [] := hrelw
      rw [hfold]
      rfl
    | some s =>
      have hs : s = pyJoin ":" (ops.foldl pathStep []) := hrelw
      rw [← hs]
      rfl
  · subst h
    by_cases hc : comps = []
    · subst hc
      have hap : applyPathOperations (some (pyJoin ":" [])) ops ":" =
          pyJoin ":" (ops.foldl pathStep []) := rfl
      obtain ⟨w, hw, hcan, hrelw⟩ := pathOps_fold_refines ops hops (some (pyJoin ":" [])) []
        (by intro p hp; simp at hp) rfl
      rw [hw, hap]
      cases w with
      | none =>
        have hfold : ops.foldl pathStep [] = [] := hrelw
        rw [hfold]
        rfl
      | some s =>
        have hs : s = pyJoin ":" (ops.foldl pathStep []) := hrelw
        rw [← hs]
        rfl
    · have hne : pyJoin ":" comps ≠ "" :=
        pyJoin_ne_empty comps hc (fun p hp => (hcomps p hp).1)
      have hsplit : splitComponents (pyJoin ":" comps) ":" = comps :=
        splitComponents_pyJoin_colon comps hc (fun p hp => (hcomps p hp).2)
      have hfil : comps.filter (fun p => p != "") = comps :=
        List.filter_eq_self.mpr (fun p hp => bne_iff_ne.mpr (hcomps p hp).1)
      have hap : applyPathOperations (some (pyJoin ":" comps)) ops ":" =
          pyJoin ":" (ops.foldl pathStep comps) := by
        unfold applyPathOperations
        simp only [Option.getD_some]
        rw [if_neg hne, hsplit, hfil]
      obtain ⟨w, hw, hcan, hrelw⟩ :=
        pathOps_fold_refines ops hops (some (pyJoin ":" comps)) comps hcomps rfl
      rw [hw, hap]
      cases w with
      | none =>
        have hfold : ops.foldl pathStep comps = [] := hrelw
        rw [hfold]
        rfl
      | some s =>
        have hs : s = pyJoin ":" (ops.foldl pathStep comps) := hrelw
        rw [← hs]
        rfl

/-- Witness for claim C9 as amended: prepend `v` then remove `a` on the
initial value `a:b`, all with the default colon separator. -/
theorem claim_C9_amended_refinement_witness :
    Except.map (fun w => Option.getD w "")
        (applyOperations (some "a:b")
          [⟨"prepend", "v", none⟩, ⟨"remove", "a", some ":"⟩]) =
      Except.ok (applyPathOperations (some "a:b")
          [⟨"prepend", "v", none⟩, ⟨"remove", "a", some ":"⟩] ":") :=
  claim_C9_amended_refinement ["a", "b"]
    [⟨"prepend", "v", none⟩, ⟨"remove", "a", some ":"⟩] (some "a:b")
    (by decide) (by decide) (Or.inr (by decide))
